import Mathlib

/-!
Formal model of the computational core of the global_simulacion repository:
pseudorandom sequence generators (mixed and multiplicative linear congruential,
middle squares), the Hull-Dobell condition validator, the Chi-square and
Kolmogorov-Smirnov goodness-of-fit tests, and the acceptance-rejection sampler.

Python integers are modelled as Nat (or Int where the source can go negative),
Python floats as rationals, loop state is passed explicitly and while loops are
given explicit fuel so that every definition is structurally recursive.  The
process-global uniform source consumed by the rejection sampler and the scipy
calls made by the statistical tests are injected as explicit parameters.
-/

/-- round(q, 3) from the source, modelled over the rationals: round at the third
    decimal place (Python rounds ties to even; no claim exercises a tie). -/
def round3 (q : ℚ) : ℚ := ((round (q * 1000) : ℤ) : ℚ) / 1000

namespace MiddleSquares

/-- Little-endian decimal digits of a natural number, with explicit fuel so that
    the definition is structurally recursive; one fuel unit is spent per digit,
    so fuel n is always enough for n itself. -/
def natDigitsAux : Nat → Nat → List Nat
  | _, 0 => []
  | 0, _ + 1 => []
  | fuel + 1, n + 1 => ((n + 1) % 10) :: natDigitsAux fuel ((n + 1) / 10)

/-- The decimal representation str(n) of the source, most significant digit
    first; str(0) is the one-character string "0". -/
def strDigits (n : Nat) : List Nat := if n = 0 then [0] else (natDigitsAux n n).reverse

/-- int(s) applied to a digit string: left fold accumulating acc * 10 + digit. -/
def digitsToNat (l : List Nat) : Nat := l.foldl (fun acc d => 10 * acc + d) 0

/-- s.ljust(w, "0") of the source: pad with zeros on the RIGHT up to width w
    (no truncation when the string is already at least w long). -/
def ljustZeros (l : List Nat) (w : Nat) : List Nat := l ++ List.replicate (w - l.length) 0

/-- The digit slice squared_str[start : start + digits] taken by
    MiddleSquaresGenerator.extract_middle_digits, where squared_str is
    str(squared).ljust(2 * digits, "0") and start = (len(squared_str) - digits) // 2. -/
def middle_slice (digits squared : Nat) : List Nat :=
  let s := ljustZeros (strDigits squared) (2 * digits)
  (s.drop ((s.length - digits) / 2)).take digits

/-- MiddleSquaresGenerator.extract_middle_digits: int of the middle slice. -/
def extract_middle_digits (digits squared : Nat) : Nat :=
  digitsToNat (middle_slice digits squared)

/-- Modelled from the spec: the same middle-digit extraction but with the square
    LEFT-padded with zeros to exactly 2 * digits digits, as the specification
    prescribes; the source pads on the right instead. -/
def extract_middle_digits_spec (digits squared : Nat) : Nat :=
  let s := List.replicate (2 * digits - (strDigits squared).length) 0 ++ strDigits squared
  digitsToNat ((s.drop ((s.length - digits) / 2)).take digits)

/-- Stop reason f-string "Se generó un 0, ...". -/
def zeroMsg : String := "Se generó un 0, lo cual hace que la secuencia se congele en ceros"

/-- Stop reason f-string for the iteration cap. -/
def limitMsg (maxIter : Nat) : String :=
  "Se alcanzó el límite máximo de iteraciones (" ++ toString maxIter ++ ")"

/-- Stop reason f-string for a repeated value. -/
def repeatMsg (v : Nat) : String := "Se repitió el valor " ++ toString v

/-- The stop-reason bookkeeping of MiddleSquaresGenerator.generate after the
    loop: the iteration-limit check takes precedence, then repetition; the
    zero-generated message survives only when neither of those fires. -/
def msq_finalize (maxIter : Nat) (seen : List Nat) (current iters : Nat) : String :=
  if maxIter ≤ iters then limitMsg maxIter
  else if current ∈ seen then repeatMsg current
  else zeroMsg

/-- The while loop of MiddleSquaresGenerator.generate with explicit fuel.  The
    sequence list doubles as seen_values, which always holds exactly the same
    values in the source.  A freshly generated zero stops the loop at once,
    before the zero is appended and before iterations is incremented. -/
def msq_loop (d maxIter : Nat) : Nat → List Nat → Nat → Nat → List Nat × String
  | 0, seen, current, iters => (seen, msq_finalize maxIter seen current iters)
  | fuel + 1, seen, current, iters =>
    if current ∈ seen ∨ maxIter ≤ iters then (seen, msq_finalize maxIter seen current iters)
    else
      let next := extract_middle_digits d (current ^ 2)
      if next = 0 then (seen ++ [current], msq_finalize maxIter (seen ++ [current]) next iters)
      else msq_loop d maxIter fuel (seen ++ [current]) next (iters + 1)

/-- MiddleSquaresGenerator.generate: iteration cap 10000; 10001 units of fuel
    always outlast the cap, so the fuel case of msq_loop is never reached. -/
def msq_generate (d x0 : Nat) : List Nat × String := msq_loop d 10000 10001 [] x0 0

/-- normalized = [round(x / self.base, 3) ...] with base = 10 ** digits. -/
def msq_normalized (d : Nat) (seq : List Nat) : List ℚ :=
  seq.map fun v : ℕ => round3 ((v : ℚ) / ((10 ^ d : Nat) : ℚ))

end MiddleSquares

namespace Congruential

/-- MixedCongruentialGenerator.next_value: (a * x + b) mod m. -/
def mixed_next_value (a b m x : Nat) : Nat := (a * x + b) % m

/-- MultiplicativeCongruentialGenerator.next_value: (a * x) mod m. -/
def mult_next_value (a m x : Nat) : Nat := (a * x) % m

/-- The while loop of CongruentialGenerator.generate with explicit fuel: append
    the current value until a value reappears; the sequence list doubles as
    seen_values, which always holds exactly the same values in the source. -/
def genSeq (next : Nat → Nat) : Nat → List Nat → Nat → List Nat
  | 0, seen, _ => seen
  | fuel + 1, seen, current =>
    if current ∈ seen then seen else genSeq next fuel (seen ++ [current]) (next current)

/-- CongruentialGenerator.generate for the mixed variant.  Fuel m + 1 suffices:
    after the seed every value lies below m and values repeat within m steps. -/
def mixed_sequence (a b m x0 : Nat) : List Nat :=
  genSeq (mixed_next_value a b m) (m + 1) [] x0

/-- CongruentialGenerator.generate for the multiplicative variant. -/
def mult_sequence (a m x0 : Nat) : List Nat :=
  genSeq (mult_next_value a m) (m + 1) [] x0

/-- normalized = [round(x / self.m, 3) for x in sequence]. -/
def normalized (m : Nat) (seq : List Nat) : List ℚ :=
  seq.map fun v : ℕ => round3 ((v : ℚ) / (m : ℚ))

/-- stats["period"] = len(self.sequence). -/
def stats_period (seq : List Nat) : Nat := seq.length

end Congruential

namespace Conditions

/-- CongruentialValidator.gcd: the Euclid while loop, with fuel; the second
    argument strictly decreases, so fuel b + 1 completes the loop. -/
def gcd_loop : Nat → Nat → Nat → Nat
  | 0, a, _ => a
  | fuel + 1, a, b => if b = 0 then a else gcd_loop fuel b (a % b)

/-- CongruentialValidator.gcd(a, b). -/
def gcd (a b : Nat) : Nat := gcd_loop (b + 1) a b

/-- CongruentialValidator.get_prime_factors trial division: divide out d while
    d * d <= n, then the leftover n > 1 is itself appended.  The nested while
    loops of the source become one recursion; fuel 2 * n outlasts both. -/
def trial_div : Nat → Nat → Nat → List Nat
  | 0, n, _ => if 1 < n then [n] else []
  | fuel + 1, n, d =>
    if d * d ≤ n then
      if n % d = 0 then d :: trial_div fuel (n / d) d
      else trial_div fuel n (d + 1)
    else if 1 < n then [n] else []

/-- CongruentialValidator.get_prime_factors: trial division from d = 2 followed
    by deduplication (list(set(factors)) in the source; only membership in the
    result is ever consumed). -/
def get_prime_factors (n : Nat) : List Nat := (trial_div (2 * n) n 2).dedup

/-- validate_gcd_condition satisfied field: vacuously true for the
    multiplicative method, else gcd(b, m) == 1. -/
def gcd_condition_satisfied (is_mixed : Bool) (b m : Nat) : Bool :=
  if is_mixed then gcd b m == 1 else true

/-- validate_prime_divisor_condition satisfied field: (a - 1) % q == 0 for every
    prime factor q of m, with Python integer semantics for the subtraction
    (a may be any integer, so a - 1 lives in Int). -/
def prime_divisor_condition_satisfied (a : Int) (m : Nat) : Bool :=
  (get_prime_factors m).all fun q => (a - 1) % (q : Int) == 0

/-- validate_four_divisor_condition satisfied field: vacuously true when 4 does
    not divide m, else (a - 1) % 4 == 0. -/
def four_divisor_condition_satisfied (a : Int) (m : Nat) : Bool :=
  if m % 4 ≠ 0 then true else (a - 1) % 4 == 0

/-- all(c["satisfied"] for c in conditions) computed by the /validate endpoint
    over the three reports of validate_all_conditions (the a-range check is
    commented out in the source). -/
def all_satisfied (is_mixed : Bool) (a : Int) (b m : Nat) : Bool :=
  gcd_condition_satisfied is_mixed b m && prime_divisor_condition_satisfied a m
    && four_divisor_condition_satisfied a m

end Conditions

namespace StatisticalTests

/-- ChiSquareTest critical value row for alpha = 0.01, degrees of freedom 1..30. -/
def chi_table_001 : List ℚ :=
  [6.635, 9.210, 11.345, 13.277, 15.086, 16.812, 18.475, 20.090, 21.666, 23.209,
   24.725, 26.217, 27.688, 29.141, 30.578, 32.000, 33.409, 34.805, 36.191, 37.566,
   38.932, 40.289, 41.638, 42.980, 44.314, 45.642, 46.963, 48.278, 49.588, 50.892]

/-- ChiSquareTest critical value row for alpha = 0.05, degrees of freedom 1..30. -/
def chi_table_005 : List ℚ :=
  [3.841, 5.991, 7.815, 9.488, 11.070, 12.592, 14.067, 15.507, 16.919, 18.307,
   19.675, 21.026, 22.362, 23.685, 24.996, 26.296, 27.587, 28.869, 30.144, 31.410,
   32.671, 33.924, 35.172, 36.415, 37.652, 38.885, 40.113, 41.337, 42.557, 43.773]

/-- ChiSquareTest critical value row for alpha = 0.10, degrees of freedom 1..30. -/
def chi_table_010 : List ℚ :=
  [2.706, 4.605, 6.251, 7.779, 9.236, 10.645, 12.017, 13.362, 14.684, 15.987,
   17.275, 18.549, 19.812, 21.064, 22.307, 23.542, 24.769, 25.989, 27.204, 28.412,
   29.615, 30.813, 32.007, 33.196, 34.382, 35.563, 36.741, 37.916, 39.087, 40.256]

/-- The nested dictionary lookup critical_values_table[alpha][degrees_of_freedom],
    defined exactly for alpha in {0.01, 0.05, 0.10} and df in 1..30. -/
def chi_table (alpha : ℚ) (dof : Nat) : Option ℚ :=
  if alpha = 0.01 then if 1 ≤ dof then chi_table_001[dof - 1]? else none
  else if alpha = 0.05 then if 1 ≤ dof then chi_table_005[dof - 1]? else none
  else if alpha = 0.10 then if 1 ≤ dof then chi_table_010[dof - 1]? else none
  else none

/-- ChiSquareTest.get_critical_value: table hit when available, otherwise the
    scipy inverse chi-square CDF at 1 - alpha, injected as the capability ppf. -/
def get_critical_value (ppf : ℚ → Nat → ℚ) (dof : Nat) (alpha : ℚ) : ℚ :=
  match chi_table alpha dof with
  | some v => v
  | none => ppf (1 - alpha) dof

/-- Min-max scaling of run_test, skipped when the sample already lies within the
    unit interval (if min_val < 0 or max_val > 1 in the source). -/
def normalize_sample (numbers : List ℚ) (mn mx : ℚ) : List ℚ :=
  if mn < 0 ∨ 1 < mx then numbers.map fun x => (x - mn) / (mx - mn) else numbers

/-- Bucket index of one normalized value: clamp into the unit interval, divide
    by the interval width 1 / k and truncate, capping the index at k - 1. -/
def bucket_index (k : Nat) (q : ℚ) : Nat :=
  min (max 0 (min 1 q) * (k : ℚ)).floor.toNat (k - 1)

/-- Observed frequency of each of the k intervals (the per-element increments of
    the source produce exactly these counts). -/
def observed_frequencies (k : Nat) (l : List ℚ) : List Nat :=
  (List.range k).map fun i => l.countP fun q => bucket_index k q == i

/-- The fields of the Chi-square result dictionary used by the claims. -/
structure ChiResult where
  calculated : ℚ
  critical : ℚ
  passes : Bool
  degrees : Nat
  sample_size : Nat
  observed : List Nat
  expected : ℚ
deriving DecidableEq

/-- ChiSquareTest.run_test: the raised ValueError branches become Except.error,
    in source order (empty sample, intervals < 2, unsupported alpha, constant
    sample); otherwise the complete result is returned. -/
def chi_run_test (ppf : ℚ → Nat → ℚ) (numbers : List ℚ) (intervals : Nat) (alpha : ℚ) :
    Except String ChiResult :=
  match numbers with
  | [] => .error "La lista de números no puede estar vacía"
  | x :: xs =>
    if intervals < 2 then .error "El número de intervalos debe ser mayor o igual a 2"
    else if ¬(alpha = 0.01 ∨ alpha = 0.05 ∨ alpha = 0.10) then
      .error "El nivel de significancia debe ser 0.01, 0.05 o 0.10"
    else
      let mn := xs.foldl min x
      let mx := xs.foldl max x
      if mn = mx then .error "Todos los números son iguales, no se puede realizar la prueba"
      else
        let norm := normalize_sample (x :: xs) mn mx
        let n := (x :: xs).length
        let observed := observed_frequencies intervals norm
        let expected : ℚ := (n : ℚ) / (intervals : ℚ)
        let statistic := (observed.map fun o => ((o : ℚ) - expected) ^ 2 / expected).sum
        let dof := intervals - 1
        .ok ⟨statistic, get_critical_value ppf dof alpha,
          decide (statistic ≤ get_critical_value ppf dof alpha), dof, n, observed, expected⟩

/-- KolmogorovSmirnovTest critical_coefficients dictionary with the .get default
    1.36 for any other significance level. -/
def ks_coefficient (alpha : ℚ) : ℚ :=
  if alpha = 0.01 then 1.628 else if alpha = 0.05 then 1.36
  else if alpha = 0.10 then 1.22 else 1.36

/-- Stable insertion of one element into an ascending list. -/
def insertSorted (x : ℚ) : List ℚ → List ℚ
  | [] => [x]
  | y :: ys => if x ≤ y then x :: y :: ys else y :: insertSorted x ys

/-- normalized.sort() of the source: stable ascending sort. -/
def sortAsc (l : List ℚ) : List ℚ := l.foldr insertSorted []

/-- The Kolmogorov-Smirnov statistic of run_test: running maximum, started at 0,
    of |y(i) - (i + 1) / n| over the sorted sample. -/
def ks_statistic (l : List ℚ) (n : Nat) : ℚ :=
  (l.enum.map fun p => |p.2 - ((p.1 : ℚ) + 1) / (n : ℚ)|).foldl max 0

/-- The fields of the Kolmogorov-Smirnov result dictionary used by the claims. -/
structure KSResult where
  calculated : ℚ
  critical : ℚ
  passes : Bool
  sample_size : Nat
deriving DecidableEq

/-- The result KolmogorovSmirnovTest.run_test produces on the 4-point sample
    0, 0.25, 0.5, 1 at alpha = 0.05: statistic 1/4, critical value
    1.36 / sqrt 4 = 0.68. -/
def ksExampleResult : KSResult := ⟨1/4, 17/25, true, 4⟩

/-- KolmogorovSmirnovTest.run_test; s injects math.sqrt (a float in the source).
    The raised ValueError branches become Except.error, in source order (empty
    sample, constant sample); otherwise the complete result is returned. -/
def ks_run_test (s : Nat → ℚ) (numbers : List ℚ) (alpha : ℚ) : Except String KSResult :=
  match numbers with
  | [] => .error "La lista de números no puede estar vacía"
  | x :: xs =>
    let mn := xs.foldl min x
    let mx := xs.foldl max x
    if mn = mx then .error "Todos los números son iguales, no se puede realizar la prueba"
    else
      let norm := sortAsc (normalize_sample (x :: xs) mn mx)
      let n := (x :: xs).length
      let statistic := ks_statistic norm n
      let critical := ks_coefficient alpha / s n
      .ok ⟨statistic, critical, decide (statistic ≤ critical), n⟩

end StatisticalTests

namespace AcceptanceRejection

/-- The per-trial data recorded by AcceptanceRejectionGenerator.generate:
    the two uniforms, the candidate vax, the chart value f(vax) / M and the
    acceptance flag. -/
structure Trial where
  r1 : ℚ
  r2 : ℚ
  candidate : ℚ
  scaled : ℚ
  accepted : Bool
deriving DecidableEq

/-- One iteration of the generate loop: candidate vax = a + (b - a) * r1,
    acceptance criterion r2 <= f(vax) / M. -/
def run_trial (a b M : ℚ) (f : ℚ → ℚ) (u : ℚ × ℚ) : Trial :=
  let vax := a + (b - a) * u.1
  let fvax := f vax
  ⟨u.1, u.2, vax, fvax / M, decide (u.2 ≤ fvax / M)⟩

/-- The count iterations of generate, fed by an injected stream of uniform
    pairs (the source consumes the process-global random.random() twice per
    iteration, r1 then r2). -/
def trials (a b M : ℚ) (f : ℚ → ℚ) (draws : Nat → ℚ × ℚ) (count : Nat) : List Trial :=
  (List.range count).map fun i => run_trial a b M f (draws i)

/-- The fields of the generate result dictionary used by the claims. -/
structure SamplingResult where
  r1_values : List ℚ
  r2_values : List ℚ
  generated_values : List ℚ
  acceptance_rate : ℚ
  chart_y : List ℚ
  chart_accepted : List Bool
deriving DecidableEq

/-- AcceptanceRejectionGenerator.generate: always exactly count trials; every
    trial is appended to the trace lists, accepted candidates additionally to
    generated_values; acceptance_rate is accepted_count / count (0 when count
    is 0). -/
def generate (a b M : ℚ) (f : ℚ → ℚ) (draws : Nat → ℚ × ℚ) (count : Nat) : SamplingResult :=
  let ts := trials a b M f draws count
  ⟨ts.map (·.r1), ts.map (·.r2), (ts.filter (·.accepted)).map (·.candidate),
    if 0 < count then ((ts.countP (·.accepted) : ℕ) : ℚ) / (count : ℚ) else 0,
    ts.map (·.scaled), ts.map (·.accepted)⟩

/-- LinealFunction.target_density: f(x) = 2x on [0, 1], 0 outside. -/
def lineal_density (x : ℚ) : ℚ := if 0 ≤ x ∧ x ≤ 1 then 2 * x else 0

end AcceptanceRejection

namespace MiddleSquares

theorem mem_natDigitsAux_lt : ∀ fuel n x, x ∈ natDigitsAux fuel n → x < 10 := by
  intro fuel
  induction fuel with
  | zero => intro n x hx; cases n <;> simp [natDigitsAux] at hx
  | succ f ih =>
    intro n x hx
    cases n with
    | zero => simp [natDigitsAux] at hx
    | succ k =>
      simp only [natDigitsAux, List.mem_cons] at hx
      rcases hx with h | h
      · subst h; exact Nat.mod_lt _ (by norm_num)
      · exact ih _ _ h

theorem mem_strDigits_lt {n x : Nat} (hx : x ∈ strDigits n) : x < 10 := by
  unfold strDigits at hx
  by_cases h : n = 0
  · rw [if_pos h] at hx
    rcases List.mem_singleton.mp hx with rfl
    norm_num
  · rw [if_neg h] at hx
    exact mem_natDigitsAux_lt _ _ _ (List.mem_reverse.mp hx)

theorem foldl_digits_general :
    ∀ (l : List Nat) (a : Nat),
      l.foldl (fun acc d => 10 * acc + d) a = a * 10 ^ l.length + digitsToNat l := by
  intro l
  induction l with
  | nil => intro a; simp [digitsToNat]
  | cons d t ih =>
    intro a
    have hd : digitsToNat (d :: t) = d * 10 ^ t.length + digitsToNat t := by
      simp only [digitsToNat, List.foldl_cons]
      simpa using ih d
    simp only [List.foldl_cons]
    rw [ih (10 * a + d), hd, List.length_cons]
    ring

theorem digitsToNat_lt : ∀ (l : List Nat), (∀ x ∈ l, x < 10) → digitsToNat l < 10 ^ l.length := by
  intro l
  induction l with
  | nil => intro _; simp [digitsToNat]
  | cons d t ih =>
    intro h
    have hd : d < 10 := h d (List.mem_cons_self d t)
    have ht := ih fun x hx => h x (List.mem_cons_of_mem _ hx)
    have hrw : digitsToNat (d :: t) = d * 10 ^ t.length + digitsToNat t := by
      simp only [digitsToNat, List.foldl_cons]
      simpa using foldl_digits_general t d
    rw [hrw, List.length_cons, pow_succ]
    calc d * 10 ^ t.length + digitsToNat t < d * 10 ^ t.length + 10 ^ t.length := by omega
    _ = (d + 1) * 10 ^ t.length := by ring
    _ ≤ 10 * 10 ^ t.length := Nat.mul_le_mul_right _ (by omega)
    _ = 10 ^ t.length * 10 := by ring

theorem extract_middle_digits_lt (d sq : Nat) : extract_middle_digits d sq < 10 ^ d := by
  unfold extract_middle_digits
  have hmem : ∀ x ∈ middle_slice d sq, x < 10 := by
    intro x hx
    unfold middle_slice at hx
    have hx2 := List.take_subset _ _ hx
    have hx3 := List.drop_subset _ _ hx2
    unfold ljustZeros at hx3
    rcases List.mem_append.mp hx3 with h | h
    · exact mem_strDigits_lt h
    · have := List.eq_of_mem_replicate h; omega
  have hlen : (middle_slice d sq).length ≤ d := by
    unfold middle_slice
    simp only [List.length_take]
    exact min_le_left _ _
  calc digitsToNat (middle_slice d sq) < 10 ^ (middle_slice d sq).length :=
        digitsToNat_lt _ hmem
  _ ≤ 10 ^ d := Nat.pow_le_pow_right (by norm_num) hlen

theorem msq_loop_mem_lt (d maxIter : Nat) :
    ∀ (fuel : Nat) (seen : List Nat) (current iters : Nat),
      (∀ v ∈ seen, v < 10 ^ d) → current < 10 ^ d →
      ∀ v ∈ (msq_loop d maxIter fuel seen current iters).1, v < 10 ^ d := by
  intro fuel
  induction fuel with
  | zero => intro seen current iters hseen _ v hv; exact hseen v hv
  | succ f ih =>
    intro seen current iters hseen hcur v hv
    simp only [msq_loop] at hv
    by_cases hguard : current ∈ seen ∨ maxIter ≤ iters
    · rw [if_pos hguard] at hv; exact hseen v hv
    · rw [if_neg hguard] at hv
      have happ : ∀ w ∈ seen ++ [current], w < 10 ^ d := by
        intro w hw
        rcases List.mem_append.mp hw with h | h
        · exact hseen w h
        · rcases List.mem_singleton.mp h with rfl; exact hcur
      by_cases hz : extract_middle_digits d (current ^ 2) = 0
      · rw [if_pos hz] at hv; exact happ v hv
      · rw [if_neg hz] at hv
        exact ih _ _ _ happ (extract_middle_digits_lt d _) v hv

theorem msq_finalize_trichotomy (maxIter : Nat) (seen : List Nat) (current iters : Nat) :
    msq_finalize maxIter seen current iters = limitMsg maxIter ∨
      (∃ v, msq_finalize maxIter seen current iters = repeatMsg v) ∨
      msq_finalize maxIter seen current iters = zeroMsg := by
  unfold msq_finalize
  by_cases h1 : maxIter ≤ iters
  · rw [if_pos h1]; exact Or.inl rfl
  · rw [if_neg h1]
    by_cases h2 : current ∈ seen
    · rw [if_pos h2]; exact Or.inr (Or.inl ⟨current, rfl⟩)
    · rw [if_neg h2]; exact Or.inr (Or.inr rfl)

theorem msq_loop_reason_trichotomy (d maxIter : Nat) :
    ∀ (fuel : Nat) (seen : List Nat) (current iters : Nat),
      (msq_loop d maxIter fuel seen current iters).2 = limitMsg maxIter ∨
        (∃ v, (msq_loop d maxIter fuel seen current iters).2 = repeatMsg v) ∨
        (msq_loop d maxIter fuel seen current iters).2 = zeroMsg := by
  intro fuel
  induction fuel with
  | zero => intro seen current iters; exact msq_finalize_trichotomy maxIter seen current iters
  | succ f ih =>
    intro seen current iters
    simp only [msq_loop]
    by_cases hguard : current ∈ seen ∨ maxIter ≤ iters
    · rw [if_pos hguard]; exact msq_finalize_trichotomy maxIter seen current iters
    · rw [if_neg hguard]
      by_cases hz : extract_middle_digits d (current ^ 2) = 0
      · rw [if_pos hz]; exact msq_finalize_trichotomy maxIter _ _ iters
      · rw [if_neg hz]; exact ih _ _ _

end MiddleSquares

namespace Congruential

theorem genSeq_nodup (next : Nat → Nat) :
    ∀ (fuel : Nat) (seen : List Nat) (current : Nat), seen.Nodup →
      (genSeq next fuel seen current).Nodup := by
  intro fuel
  induction fuel with
  | zero => intro seen current h; exact h
  | succ f ih =>
    intro seen current h
    simp only [genSeq]
    by_cases hg : current ∈ seen
    · rw [if_pos hg]; exact h
    · rw [if_neg hg]
      refine ih _ _ (h.append (List.nodup_singleton current) ?_)
      intro a ha hb
      rcases List.mem_singleton.mp hb with rfl
      exact hg ha

theorem genSeq_append (next : Nat → Nat) :
    ∀ (fuel : Nat) (seen : List Nat) (current : Nat),
      ∃ t, genSeq next fuel seen current = seen ++ t := by
  intro fuel
  induction fuel with
  | zero => intro seen current; exact ⟨[], by simp [genSeq]⟩
  | succ f ih =>
    intro seen current
    simp only [genSeq]
    by_cases hg : current ∈ seen
    · rw [if_pos hg]; exact ⟨[], by simp⟩
    · rw [if_neg hg]
      obtain ⟨t, ht⟩ := ih (seen ++ [current]) (next current)
      exact ⟨current :: t, by simp [ht]⟩

theorem genSeq_mem_lt (next : Nat → Nat) (m : Nat) (hnext : ∀ y, next y < m) :
    ∀ (fuel : Nat) (seen : List Nat) (current : Nat),
      (∀ v ∈ seen, v < m) → current < m →
      ∀ v ∈ genSeq next fuel seen current, v < m := by
  intro fuel
  induction fuel with
  | zero => intro seen current hseen _ v hv; exact hseen v hv
  | succ f ih =>
    intro seen current hseen hcur v hv
    simp only [genSeq] at hv
    by_cases hg : current ∈ seen
    · rw [if_pos hg] at hv; exact hseen v hv
    · rw [if_neg hg] at hv
      refine ih _ _ ?_ (hnext current) v hv
      intro w hw
      rcases List.mem_append.mp hw with h | h
      · exact hseen w h
      · rcases List.mem_singleton.mp h with rfl; exact hcur

end Congruential

namespace Conditions

theorem gcd_loop_eq : ∀ (fuel a b : Nat), b < fuel → gcd_loop fuel a b = Nat.gcd a b := by
  intro fuel
  induction fuel with
  | zero => intro a b h; omega
  | succ f ih =>
    intro a b h
    simp only [gcd_loop]
    by_cases hb : b = 0
    · rw [if_pos hb]; subst hb; simp
    · rw [if_neg hb]
      have hmod : a % b < b := Nat.mod_lt _ (by omega)
      rw [ih b (a % b) (by omega)]
      rw [Nat.gcd_comm b (a % b), ← Nat.gcd_rec b a, Nat.gcd_comm b a]

theorem gcd_eq (a b : Nat) : gcd a b = Nat.gcd a b := gcd_loop_eq (b + 1) a b (by omega)

theorem trial_div_exit {n d : Nat} (hn : 1 ≤ n) (hnd : ¬ d * d ≤ n)
    (hmin : ∀ p, p.Prime → p ∣ n → d ≤ p) :
    ∀ q, q ∈ (if 1 < n then [n] else ([] : List Nat)) ↔ (q.Prime ∧ q ∣ n) := by
  intro q
  by_cases h1 : 1 < n
  · rw [if_pos h1]
    have hprime : n.Prime := by
      by_contra hnp
      have hmf : n.minFac.Prime := Nat.minFac_prime (by omega)
      have hdvd : n.minFac ∣ n := Nat.minFac_dvd n
      have hge : d ≤ n.minFac := hmin _ hmf hdvd
      have hsq : n.minFac ^ 2 ≤ n := Nat.minFac_sq_le_self (by omega) hnp
      have hmul : d * d ≤ n.minFac * n.minFac := Nat.mul_le_mul hge hge
      rw [pow_two] at hsq
      omega
    constructor
    · intro hq
      rcases List.mem_singleton.mp hq with rfl
      exact ⟨hprime, dvd_rfl⟩
    · rintro ⟨hqp, hqd⟩
      rcases hprime.eq_one_or_self_of_dvd q hqd with h | h
      · exact absurd h hqp.ne_one
      · simp [h]
  · rw [if_neg h1]
    simp only [List.not_mem_nil, false_iff]
    rintro ⟨hqp, hqd⟩
    have hn1 : n = 1 := by omega
    subst hn1
    exact hqp.ne_one (Nat.eq_one_of_dvd_one hqd)

theorem trial_div_mem :
    ∀ (fuel n d : Nat), 2 * n < fuel + d → 2 ≤ d → 1 ≤ n →
      (∀ p, p.Prime → p ∣ n → d ≤ p) →
      ∀ q, q ∈ trial_div fuel n d ↔ (q.Prime ∧ q ∣ n) := by
  intro fuel
  induction fuel with
  | zero =>
    intro n d hfuel hd hn hmin q
    have hexit : ¬ d * d ≤ n := by nlinarith
    simp only [trial_div]
    exact trial_div_exit hn hexit hmin q
  | succ f ih =>
    intro n d hfuel hd hn hmin q
    simp only [trial_div]
    by_cases hdd : d * d ≤ n
    · rw [if_pos hdd]
      by_cases hmod : n % d = 0
      · rw [if_pos hmod]
        have hdvd : d ∣ n := Nat.dvd_of_mod_eq_zero hmod
        have hdn : d ≤ n := Nat.le_of_dvd (by omega) hdvd
        have hdprime : d.Prime := by
          have hmf : d.minFac.Prime := Nat.minFac_prime (by omega)
          have h1 : d.minFac ∣ d := Nat.minFac_dvd d
          have h2 : d ≤ d.minFac := hmin _ hmf (h1.trans hdvd)
          have h3 : d.minFac ≤ d := Nat.minFac_le (by omega)
          have h4 : d.minFac = d := le_antisymm h3 h2
      -- the least prime factor of d is d itself, so d is prime
          rw [← h4]; exact hmf
        have hq1 : 1 ≤ n / d := Nat.div_pos hdn (by omega)
        have hfuel2 : 2 * (n / d) < f + d := by
          have h2 : n / d ≤ n / 2 := Nat.div_le_div_left hd (by norm_num)
          omega
        have hrec := ih (n / d) d hfuel2 hd hq1
          (fun p hp hpd => hmin p hp (hpd.trans (Nat.div_dvd_of_dvd hdvd)))
        constructor
        · intro hmem
          rcases List.mem_cons.mp hmem with rfl | hmem2
          · exact ⟨hdprime, hdvd⟩
          · obtain ⟨hqp, hqd⟩ := (hrec q).mp hmem2
            exact ⟨hqp, hqd.trans (Nat.div_dvd_of_dvd hdvd)⟩
        · rintro ⟨hqp, hqd⟩
          by_cases hqeq : q = d
          · subst hqeq; exact List.mem_cons_self _ _
          · refine List.mem_cons_of_mem _ ((hrec q).mpr ⟨hqp, ?_⟩)
            have hsplit : n = d * (n / d) := (Nat.mul_div_cancel' hdvd).symm
            have : q ∣ d * (n / d) := hsplit ▸ hqd
            rcases (Nat.Prime.dvd_mul hqp).mp this with h | h
            · exact absurd ((Nat.prime_dvd_prime_iff_eq hqp hdprime).mp h) hqeq
            · exact h
      · rw [if_neg hmod]
        refine ih n (d + 1) (by omega) (by omega) hn (fun p hp hpd => ?_) q
        have hge : d ≤ p := hmin p hp hpd
        have hne : p ≠ d := by
          rintro rfl
          exact hmod (Nat.mod_eq_zero_of_dvd hpd)
        omega
    · rw [if_neg hdd]
      exact trial_div_exit hn hdd hmin q

theorem get_prime_factors_mem (m : Nat) (hm : 1 ≤ m) (q : Nat) :
    q ∈ get_prime_factors m ↔ q.Prime ∧ q ∣ m := by
  unfold get_prime_factors
  rw [List.mem_dedup]
  exact trial_div_mem (2 * m) m 2 (by omega) (by omega) hm (fun p hp _ => hp.two_le) q

end Conditions

namespace StatisticalTests

theorem foldl_min_le_init : ∀ (l : List ℚ) (a : ℚ), l.foldl min a ≤ a := by
  intro l
  induction l with
  | nil => intro a; simp
  | cons z zs ih =>
    intro a
    simp only [List.foldl_cons]
    exact le_trans (ih (min a z)) (min_le_left a z)

theorem foldl_max_le_init : ∀ (l : List ℚ) (a : ℚ), a ≤ l.foldl max a := by
  intro l
  induction l with
  | nil => intro a; simp
  | cons z zs ih =>
    intro a
    simp only [List.foldl_cons]
    exact le_trans (le_max_left a z) (ih (max a z))

theorem foldl_min_le : ∀ (xs : List ℚ) (x y : ℚ), y ∈ x :: xs → xs.foldl min x ≤ y := by
  intro xs
  induction xs with
  | nil =>
    intro x y hy
    rcases List.mem_singleton.mp hy with rfl
    simp
  | cons z zs ih =>
    intro x y hy
    simp only [List.foldl_cons]
    rcases List.mem_cons.mp hy with rfl | hy2
    · exact le_trans (foldl_min_le_init zs (min y z)) (min_le_left y z)
    · rcases List.mem_cons.mp hy2 with rfl | hy3
      · exact le_trans (foldl_min_le_init zs (min x y)) (min_le_right x y)
      · exact ih (min x z) y (List.mem_cons_of_mem _ hy3)

theorem le_foldl_max : ∀ (xs : List ℚ) (x y : ℚ), y ∈ x :: xs → y ≤ xs.foldl max x := by
  intro xs
  induction xs with
  | nil =>
    intro x y hy
    rcases List.mem_singleton.mp hy with rfl
    simp
  | cons z zs ih =>
    intro x y hy
    simp only [List.foldl_cons]
    rcases List.mem_cons.mp hy with rfl | hy2
    · exact le_trans (le_max_left y z) (foldl_max_le_init zs (max y z))
    · rcases List.mem_cons.mp hy2 with rfl | hy3
      · exact le_trans (le_max_right x y) (foldl_max_le_init zs (max x y))
      · exact ih (max x z) y (List.mem_cons_of_mem _ hy3)

theorem foldl_min_mem : ∀ (xs : List ℚ) (x : ℚ), xs.foldl min x ∈ x :: xs := by
  intro xs
  induction xs with
  | nil => intro x; simp
  | cons z zs ih =>
    intro x
    simp only [List.foldl_cons]
    rcases List.mem_cons.mp (ih (min x z)) with h | h
    · rcases min_choice x z with hc | hc
      · rw [h, hc]; exact List.mem_cons_self _ _
      · rw [h, hc]
        exact List.mem_cons_of_mem _ (List.mem_cons_self _ _)
    · exact List.mem_cons_of_mem _ (List.mem_cons_of_mem _ h)

theorem foldl_max_mem : ∀ (xs : List ℚ) (x : ℚ), xs.foldl max x ∈ x :: xs := by
  intro xs
  induction xs with
  | nil => intro x; simp
  | cons z zs ih =>
    intro x
    simp only [List.foldl_cons]
    rcases List.mem_cons.mp (ih (max x z)) with h | h
    · rcases max_choice x z with hc | hc
      · rw [h, hc]; exact List.mem_cons_self _ _
      · rw [h, hc]
        exact List.mem_cons_of_mem _ (List.mem_cons_self _ _)
    · exact List.mem_cons_of_mem _ (List.mem_cons_of_mem _ h)

theorem min_eq_max_iff (x : ℚ) (xs : List ℚ) :
    xs.foldl min x = xs.foldl max x ↔ ∀ a ∈ x :: xs, ∀ b ∈ x :: xs, a = b := by
  constructor
  · intro h a ha b hb
    have h1 := foldl_min_le xs x a ha
    have h2 := le_foldl_max xs x a ha
    have h3 := foldl_min_le xs x b hb
    have h4 := le_foldl_max xs x b hb
    rw [h] at h1 h3
    have ha2 : a = xs.foldl max x := le_antisymm h2 h1
    have hb2 : b = xs.foldl max x := le_antisymm h4 h3
    rw [ha2, hb2]
  · intro h
    exact h _ (foldl_min_mem xs x) _ (foldl_max_mem xs x)

end StatisticalTests

theorem round3_mem_unit {q : ℚ} (h0 : 0 ≤ q) (h1 : q < 1) : 0 ≤ round3 q ∧ round3 q ≤ 1 := by
  have hlo : (0 : ℤ) ≤ round (q * 1000) := by
    rw [round_eq]
    apply Int.floor_nonneg.mpr
    nlinarith
  have hhi : round (q * 1000) ≤ 1000 := by
    rw [round_eq]
    have h2 : q * 1000 + 1 / 2 ≤ 2001 / 2 := by nlinarith
    calc ⌊q * 1000 + 1 / 2⌋ ≤ ⌊(2001 : ℚ) / 2⌋ := Int.floor_mono h2
    _ = 1000 := by norm_num
  unfold round3
  constructor
  · apply div_nonneg _ (by norm_num)
    exact_mod_cast hlo
  · rw [div_le_one (by norm_num)]
    exact_mod_cast hhi

/-- C1: the source right-pads str(x squared) with ljust instead of left-padding
    it to 2 d digits; at the worked example x0 = 1234, d = 4 of the spec the
    source computes the middle of "15227560" and yields 2275, while the
    left-padding extraction prescribed by the spec computes the middle of
    "01522756" and yields 5227. -/
theorem middle_squares_padding_bug :
    MiddleSquares.extract_middle_digits 4 (1234 * 1234) = 2275 ∧
      MiddleSquares.extract_middle_digits_spec 4 (1234 * 1234) = 5227 ∧
      (2275 : Nat) ≠ 5227 :=
  ⟨by decide, by decide, by decide⟩

/-- C10: for every digit count d >= 1 the middle-digit extraction returns a value
    below 10 to the d on every non-negative input, and consequently every value of
    a middle-square run started below 10 to the d stays below that bound. -/
theorem extraction_bounded (d : Nat) (hd : 1 ≤ d) :
    (∀ sq : Nat, MiddleSquares.extract_middle_digits d sq < 10 ^ d) ∧
      (∀ x0, x0 < 10 ^ d → ∀ v ∈ (MiddleSquares.msq_generate d x0).1, v < 10 ^ d) := by
  refine ⟨fun sq => MiddleSquares.extract_middle_digits_lt d sq, fun x0 hx0 v hv => ?_⟩
  exact MiddleSquares.msq_loop_mem_lt d 10000 10001 [] x0 0 (by simp) hx0 v hv

/-- Concrete instantiation of extraction_bounded at d = 4 and the square of the
    seed 1234. -/
theorem extraction_bounded_witness :
    MiddleSquares.extract_middle_digits 4 (1234 * 1234) < 10 ^ 4 :=
  (extraction_bounded 4 (by norm_num)).1 (1234 * 1234)

/-- C2 (counterexample): for (x0 = 1, a = 5, b = 3, m = 16) the emitted sequence
    contains all 16 residues and has length 16; it is not the 8-element sequence
    1, 8, 11, 10, 5, 12, 15, 6 the claim states. -/
theorem mixed_example_not_length_8 :
    Congruential.mixed_sequence 5 3 16 1 =
        [1, 8, 11, 10, 5, 12, 15, 14, 9, 0, 3, 2, 13, 4, 7, 6] ∧
      Congruential.mixed_sequence 5 3 16 1 ≠ [1, 8, 11, 10, 5, 12, 15, 6] ∧
      (Congruential.mixed_sequence 5 3 16 1).length ≠ 8 :=
  ⟨by decide, by decide, by decide⟩

/-- C2 (amended): the congruential driver stops the instant a value reappears,
    without appending it again, so the emitted values are pairwise distinct and
    their count is the reported period; for (x0 = 1, a = 5, b = 3, m = 16) it
    emits all 16 residues 1, 8, 11, 10, 5, 12, 15, 14, 9, 0, 3, 2, 13, 4, 7, 6,
    the cycle being detected at the 17th draw. -/
theorem congruential_driver_stops_on_repeat :
    (∀ (next : Nat → Nat) (fuel : Nat) (x0 : Nat),
       (Congruential.genSeq next fuel [] x0).Nodup) ∧
    (∀ (next : Nat → Nat) (fuel : Nat) (seen : List Nat) (current : Nat),
       current ∈ seen → Congruential.genSeq next (fuel + 1) seen current = seen) ∧
    Congruential.mixed_sequence 5 3 16 1 =
      [1, 8, 11, 10, 5, 12, 15, 14, 9, 0, 3, 2, 13, 4, 7, 6] ∧
    Congruential.stats_period (Congruential.mixed_sequence 5 3 16 1) = 16 := by
  refine ⟨fun next fuel x0 => Congruential.genSeq_nodup next fuel [] x0 List.nodup_nil,
    fun next fuel seen current h => ?_, by decide, by decide⟩
  simp only [Congruential.genSeq, if_pos h]

/-- Concrete instantiation of the stop-on-repeat clause: a seed already seen is
    not appended again. -/
theorem congruential_driver_stops_on_repeat_witness :
    Congruential.genSeq (fun x => x) (0 + 1) [3] 3 = [3] :=
  congruential_driver_stops_on_repeat.2.1 (fun x => x) 0 [3] 3 (by decide)

/-- C3 (counterexample): with the invalid modulus m = 1 the congruential driver
    does not fail fast: it emits the sequence [0]. -/
theorem invalid_modulus_still_generates :
    Congruential.mixed_sequence 5 3 1 0 = [0] ∧ Congruential.mixed_sequence 5 3 1 0 ≠ [] :=
  ⟨by decide, by decide⟩

/-- C3 (amended): neither generator validates its parameters.  For every modulus
    m >= 1 -- in particular the invalid m = 1 -- and every seed, in or out of
    range, the congruential driver runs and emits a nonempty sequence beginning
    with the seed; and for the invalid digit count d = 0 the extracted middle
    slice is the empty string, on which the int() call of the source raises an
    unstructured ValueError only after the seed was already appended.  No
    InvalidParameter failure exists anywhere. -/
theorem no_parameter_validation :
    (∀ a b m x0, 1 ≤ m → Congruential.mixed_sequence a b m x0 ≠ [] ∧
       (Congruential.mixed_sequence a b m x0).head? = some x0) ∧
    (∀ sq, MiddleSquares.middle_slice 0 sq = []) := by
  constructor
  · intro a b m x0 _hm
    obtain ⟨t, ht⟩ := Congruential.genSeq_append (Congruential.mixed_next_value a b m) m
      [x0] (Congruential.mixed_next_value a b m x0)
    have hstep : Congruential.mixed_sequence a b m x0 = x0 :: t := by
      unfold Congruential.mixed_sequence
      simp only [Congruential.genSeq]
      rw [if_neg (List.not_mem_nil x0)]
      simpa using ht
    rw [hstep]
    exact ⟨by simp, by simp⟩
  · intro sq
    simp [MiddleSquares.middle_slice]

/-- Concrete instantiation of no_parameter_validation at the invalid parameters
    m = 1 with the out-of-range seed x0 = 7. -/
theorem no_parameter_validation_witness :
    Congruential.mixed_sequence 5 3 1 7 ≠ [] ∧
      (Congruential.mixed_sequence 5 3 1 7).head? = some 7 :=
  no_parameter_validation.1 5 3 1 7 (by norm_num)

/-- C4 (counterexample): for x0 = 10, d = 2 the very first generated value is 0
    (the middle of "1000"), and the driver halts at once with the Spanish
    zero-freeze reason: it does not wait for 3 consecutive zeros, and it reports
    none of the verbatim English reasons of the claim. -/
theorem msq_halts_on_first_zero :
    MiddleSquares.msq_generate 2 10 = ([10], MiddleSquares.zeroMsg) ∧
      MiddleSquares.zeroMsg ≠ "absorbing zero run" ∧
      MiddleSquares.zeroMsg ≠ "iteration limit reached" ∧
      MiddleSquares.zeroMsg ≠ "repeated value" :=
  ⟨by decide, by decide, by decide, by decide⟩

/-- C4 (amended): the middle-square driver halts the moment a single generated
    value is 0, leaving the zero unappended (no 3-zero run is awaited), and every
    reported stop reason is exactly one of the three mutually exclusive Spanish
    f-strings of the source: the iteration-limit message, a repeated-value
    message, or the zero-freeze message -- never the English strings of the
    claim. -/
theorem msq_stop_reasons :
    (∀ d maxIter fuel seen current iters,
       (MiddleSquares.msq_loop d maxIter fuel seen current iters).2 =
           MiddleSquares.limitMsg maxIter ∨
         (∃ v, (MiddleSquares.msq_loop d maxIter fuel seen current iters).2 =
           MiddleSquares.repeatMsg v) ∨
         (MiddleSquares.msq_loop d maxIter fuel seen current iters).2 =
           MiddleSquares.zeroMsg) ∧
    (∀ d maxIter fuel seen current iters,
       current ∉ seen → iters < maxIter →
       MiddleSquares.extract_middle_digits d (current ^ 2) = 0 →
       MiddleSquares.msq_loop d maxIter (fuel + 1) seen current iters =
         (seen ++ [current],
          MiddleSquares.msq_finalize maxIter (seen ++ [current]) 0 iters)) := by
  refine ⟨fun d maxIter fuel seen current iters =>
    MiddleSquares.msq_loop_reason_trichotomy d maxIter fuel seen current iters,
    fun d maxIter fuel seen current iters hmem hiter hz => ?_⟩
  simp only [MiddleSquares.msq_loop]
  rw [if_neg (by push_neg; exact ⟨hmem, by omega⟩), if_pos hz, hz]

/-- Concrete instantiation of the zero-halt clause at d = 2, current = 10. -/
theorem msq_stop_reasons_witness :
    MiddleSquares.msq_loop 2 10000 (10000 + 1) [] 10 0 =
      ([] ++ [10], MiddleSquares.msq_finalize 10000 ([] ++ [10]) 0 0) :=
  msq_stop_reasons.2 2 10000 10000 [] 10 0 (by decide) (by decide) (by decide)

/-- C5: the three condition reports of CongruentialValidator behave as claimed:
    the gcd(b, m) = 1 report is evaluated only when is_mixed is true and is
    vacuously satisfied otherwise; the prime-divisor report is satisfied iff
    every prime factor q of m divides a - 1; the 4-divisor report is satisfied
    iff 4 dividing m implies 4 divides a - 1, vacuously when 4 does not divide
    m; and at (a = 5, b = 3, m = 16, is_mixed = true) all three reports are
    satisfied, so all_satisfied is true. -/
theorem hull_dobell_conditions (is_mixed : Bool) (a : Int) (b m : Nat) (hm : 1 < m) :
    (is_mixed = false → Conditions.gcd_condition_satisfied is_mixed b m = true) ∧
    (is_mixed = true →
      (Conditions.gcd_condition_satisfied is_mixed b m = true ↔ Nat.gcd b m = 1)) ∧
    (Conditions.prime_divisor_condition_satisfied a m = true ↔
      ∀ q ∈ m.primeFactors, (q : Int) ∣ (a - 1)) ∧
    (Conditions.four_divisor_condition_satisfied a m = true ↔
      ((4 : ℕ) ∣ m → (4 : Int) ∣ (a - 1))) ∧
    Conditions.all_satisfied true 5 3 16 = true := by
  refine ⟨?_, ?_, ?_, ?_, by decide⟩
  · intro h
    simp [Conditions.gcd_condition_satisfied, h]
  · intro h
    subst h
    simp [Conditions.gcd_condition_satisfied, Conditions.gcd_eq]
  · constructor
    · intro h q hq
      rw [Nat.mem_primeFactors] at hq
      obtain ⟨hqp, hqd, -⟩ := hq
      have hmem : q ∈ Conditions.get_prime_factors m :=
        (Conditions.get_prime_factors_mem m (by omega) q).mpr ⟨hqp, hqd⟩
      unfold Conditions.prime_divisor_condition_satisfied at h
      have hb := (List.all_eq_true.mp h) q hmem
      exact Int.dvd_of_emod_eq_zero (by simpa using hb)
    · intro h
      unfold Conditions.prime_divisor_condition_satisfied
      rw [List.all_eq_true]
      intro q hq
      obtain ⟨hqp, hqd⟩ := (Conditions.get_prime_factors_mem m (by omega) q).mp hq
      have hdvd : (q : Int) ∣ (a - 1) :=
        h q (Nat.mem_primeFactors.mpr ⟨hqp, hqd, by omega⟩)
      simpa using Int.emod_eq_zero_of_dvd hdvd
  · unfold Conditions.four_divisor_condition_satisfied
    by_cases h4 : m % 4 = 0
    · rw [if_neg (by omega)]
      constructor
      · intro h _
        exact Int.dvd_of_emod_eq_zero (by simpa using h)
      · intro h
        have h4d : (4 : ℕ) ∣ m := Nat.dvd_of_mod_eq_zero h4
        simpa using Int.emod_eq_zero_of_dvd (h h4d)
    · rw [if_pos h4]
      constructor
      · intro _ hdvd
        exact absurd (Nat.mod_eq_zero_of_dvd hdvd) h4
      · intro _
        rfl

/-- Concrete instantiation of hull_dobell_conditions at the worked example
    (a = 5, b = 3, m = 16, is_mixed = true). -/
theorem hull_dobell_conditions_witness : Conditions.all_satisfied true 5 3 16 = true :=
  (hull_dobell_conditions true 5 3 16 (by norm_num)).2.2.2.2

/-- C7 (counterexample): for the valid parameters m = 2001 > 1,
    x0 = 2000 < m of the multiplicative generator with a = 1, the normalized
    list is [round(2000/2001, 3)] = [1.0], and 1.0 does not lie in the half-open
    interval claimed. -/
theorem normalized_can_reach_one :
    Congruential.normalized 2001 (Congruential.mult_sequence 1 2001 2000) = [(1 : ℚ)] ∧
      ¬((1 : ℚ) < 1) := by
  constructor
  · have hseq : Congruential.mult_sequence 1 2001 2000 = [2000] := by decide
    rw [hseq]
    simp only [Congruential.normalized, List.map_cons, List.map_nil]
    have hval : round3 (((2000 : ℕ) : ℚ) / ((2001 : ℕ) : ℚ)) = 1 := by
      have hc : ((2000 : ℕ) : ℚ) / ((2001 : ℕ) : ℚ) = (2000 : ℚ) / 2001 := by norm_num
      rw [hc]
      unfold round3
      have hr : round (((2000 : ℚ) / 2001) * 1000) = 1000 := by
        rw [round_eq]
        norm_num
      rw [hr]
      norm_num
    rw [hval]
  · norm_num

/-- C7 (amended): with valid parameters every element of the normalized list lies
    in the CLOSED unit interval [0, 1]; the left end is as claimed but rounding
    x/m (or x/10 to the d) to 3 decimals can reach exactly 1.0, so [0, 1) is too
    strong while [0, 1] is tight. -/
theorem normalized_within_closed_unit :
    (∀ a b m x0, 1 < m → x0 < m →
       ∀ q ∈ Congruential.normalized m (Congruential.mixed_sequence a b m x0),
         0 ≤ q ∧ q ≤ 1) ∧
    (∀ a m x0, 1 < m → x0 < m →
       ∀ q ∈ Congruential.normalized m (Congruential.mult_sequence a m x0),
         0 ≤ q ∧ q ≤ 1) ∧
    (∀ d x0, 1 ≤ d → x0 < 10 ^ d →
       ∀ q ∈ MiddleSquares.msq_normalized d (MiddleSquares.msq_generate d x0).1,
         0 ≤ q ∧ q ≤ 1) := by
  have hdiv : ∀ (v m : Nat), 0 < m → v < m → 0 ≤ (v : ℚ) / (m : ℚ) ∧ (v : ℚ) / (m : ℚ) < 1 := by
    intro v m hm hv
    constructor
    · positivity
    · rw [div_lt_one (by exact_mod_cast hm)]
      exact_mod_cast hv
  refine ⟨fun a b m x0 hm hx0 q hq => ?_, fun a m x0 hm hx0 q hq => ?_,
    fun d x0 hd hx0 q hq => ?_⟩
  · obtain ⟨v, hv, rfl⟩ := List.mem_map.mp hq
    have hvm : v < m := Congruential.genSeq_mem_lt _ m
      (fun y => Nat.mod_lt _ (by omega)) (m + 1) [] x0 (by simp) hx0 v hv
    obtain ⟨hq0, hq1⟩ := hdiv v m (by omega) hvm
    exact round3_mem_unit hq0 hq1
  · obtain ⟨v, hv, rfl⟩ := List.mem_map.mp hq
    have hvm : v < m := Congruential.genSeq_mem_lt _ m
      (fun y => Nat.mod_lt _ (by omega)) (m + 1) [] x0 (by simp) hx0 v hv
    obtain ⟨hq0, hq1⟩ := hdiv v m (by omega) hvm
    exact round3_mem_unit hq0 hq1
  · obtain ⟨v, hv, rfl⟩ := List.mem_map.mp hq
    have hvm : v < 10 ^ d :=
      MiddleSquares.msq_loop_mem_lt d 10000 10001 [] x0 0 (by simp) hx0 v hv
    obtain ⟨hq0, hq1⟩ := hdiv v (10 ^ d) (Nat.pos_pow_of_pos d (by norm_num)) hvm
    exact round3_mem_unit hq0 hq1

/-- Concrete instantiation of normalized_within_closed_unit on the first
    normalized value of the mixed example (x0 = 1, a = 5, b = 3, m = 16). -/
theorem normalized_within_closed_unit_witness :
    0 ≤ round3 ((1 : ℚ) / (16 : ℚ)) ∧ round3 ((1 : ℚ) / (16 : ℚ)) ≤ 1 :=
  normalized_within_closed_unit.1 5 3 16 1 (by norm_num) (by norm_num)
    (round3 ((1 : ℚ) / (16 : ℚ)))
    (by
      have hseq : Congruential.mixed_sequence 5 3 16 1 =
          [1, 8, 11, 10, 5, 12, 15, 14, 9, 0, 3, 2, 13, 4, 7, 6] := by decide
      rw [Congruential.normalized, hseq]
      simp)

/-- C9: with valid parameters (intervals >= 2 and a supported alpha for
    Chi-square; Kolmogorov-Smirnov takes any alpha), each test fails -- with the
    degenerate-sample ValueError and no partial result -- exactly when the
    sample is empty or constant; on every other sample a complete result is
    returned. -/
theorem degenerate_sample_fail_fast (ppf : ℚ → Nat → ℚ) (s : Nat → ℚ)
    (numbers : List ℚ) (intervals : Nat) (alpha alpha2 : ℚ)
    (hk : 2 ≤ intervals) (ha : alpha = 0.01 ∨ alpha = 0.05 ∨ alpha = 0.10) :
    ((StatisticalTests.chi_run_test ppf numbers intervals alpha).isOk = false ↔
      (numbers = [] ∨ ∀ a ∈ numbers, ∀ b ∈ numbers, a = b)) ∧
    ((StatisticalTests.ks_run_test s numbers alpha2).isOk = false ↔
      (numbers = [] ∨ ∀ a ∈ numbers, ∀ b ∈ numbers, a = b)) := by
  constructor
  · cases numbers with
    | nil => exact ⟨fun _ => Or.inl rfl, fun _ => rfl⟩
    | cons x xs =>
      simp only [StatisticalTests.chi_run_test]
      rw [if_neg (by omega), if_neg (not_not_intro ha)]
      by_cases hmm : xs.foldl min x = xs.foldl max x
      · rw [if_pos hmm]
        simp only [Except.isOk]
        constructor
        · intro _
          exact Or.inr ((StatisticalTests.min_eq_max_iff x xs).mp hmm)
        · intro _; rfl
      · rw [if_neg hmm]
        simp only [Except.isOk]
        constructor
        · intro hfalse; cases hfalse
        · rintro (h | h)
          · cases h
          · exact absurd ((StatisticalTests.min_eq_max_iff x xs).mpr h) hmm
  · cases numbers with
    | nil => exact ⟨fun _ => Or.inl rfl, fun _ => rfl⟩
    | cons x xs =>
      simp only [StatisticalTests.ks_run_test]
      by_cases hmm : xs.foldl min x = xs.foldl max x
      · rw [if_pos hmm]
        simp only [Except.isOk]
        constructor
        · intro _
          exact Or.inr ((StatisticalTests.min_eq_max_iff x xs).mp hmm)
        · intro _; rfl
      · rw [if_neg hmm]
        simp only [Except.isOk]
        constructor
        · intro hfalse; cases hfalse
        · rintro (h | h)
          · cases h
          · exact absurd ((StatisticalTests.min_eq_max_iff x xs).mpr h) hmm

/-- Concrete instantiation of degenerate_sample_fail_fast for the Chi-square
    test on the two-point sample 0, 1/2 with k = 2, alpha = 0.05. -/
theorem degenerate_sample_fail_fast_witness :
    (StatisticalTests.chi_run_test (fun _ _ => (0 : ℚ)) [0, 1/2] 2 0.05).isOk = false ↔
      (([0, 1/2] : List ℚ) = [] ∨
        ∀ a ∈ ([0, 1/2] : List ℚ), ∀ b ∈ ([0, 1/2] : List ℚ), a = b) :=
  (degenerate_sample_fail_fast (fun _ _ => 0) (fun _ => 1) [0, 1/2] 2 0.05 0.05
    (by norm_num) (by norm_num)).1

/-- C8 (amended): the Kolmogorov-Smirnov critical value is ALWAYS the tabulated
    coefficient (1.628, 1.36, 1.22 for alpha 0.01, 0.05, 0.10; default 1.36 for
    any other alpha) divided by sqrt n -- the source has no exact small-sample
    critical-value table for any n -- and the test passes iff the statistic is
    at most the critical value. -/
theorem ks_critical_always_coefficient_over_sqrt (s : Nat → ℚ) (numbers : List ℚ)
    (alpha : ℚ) (r : StatisticalTests.KSResult)
    (h : StatisticalTests.ks_run_test s numbers alpha = Except.ok r) :
    r.critical = StatisticalTests.ks_coefficient alpha / s numbers.length ∧
      (r.passes = true ↔ r.calculated ≤ r.critical) ∧
      StatisticalTests.ks_coefficient 0.01 = 1.628 ∧
      StatisticalTests.ks_coefficient 0.05 = 1.36 ∧
      StatisticalTests.ks_coefficient 0.10 = 1.22 := by
  cases numbers with
  | nil => simp [StatisticalTests.ks_run_test] at h
  | cons x xs =>
    simp only [StatisticalTests.ks_run_test] at h
    by_cases hmm : xs.foldl min x = xs.foldl max x
    · rw [if_pos hmm] at h; cases h
    · rw [if_neg hmm] at h
      injection h with h2
      subst h2
      refine ⟨rfl, by simp, ?_, ?_, ?_⟩
      · norm_num [StatisticalTests.ks_coefficient]
      · norm_num [StatisticalTests.ks_coefficient]
      · norm_num [StatisticalTests.ks_coefficient]

/-- Evaluation of KolmogorovSmirnovTest.run_test on the 4-point sample
    0, 1/4, 1/2, 1 at alpha = 0.05, with the injected sqrt exact at the perfect
    square 4 (math.sqrt(4) = 2.0 exactly in the source): the run succeeds and
    the critical value is 1.36 / 2. -/
theorem ksExampleRun :
    StatisticalTests.ks_run_test (fun k => ((Nat.sqrt k : ℕ) : ℚ)) [0, 1/4, 1/2, 1] 0.05 =
      Except.ok StatisticalTests.ksExampleResult := by
  have hsq : ((Nat.sqrt 4 : ℕ) : ℚ) = 2 := by norm_num [Nat.sqrt]
  simp only [StatisticalTests.ks_run_test]
  rw [if_neg (by norm_num [List.foldl, min_def, max_def])]
  norm_num [StatisticalTests.normalize_sample, StatisticalTests.sortAsc,
    StatisticalTests.insertSorted, StatisticalTests.ks_statistic,
    StatisticalTests.ks_coefficient, StatisticalTests.ksExampleResult, List.foldr,
    List.foldl, List.enum, List.enumFrom, List.map, min_def, max_def, hsq]
  rw [abs_of_nonneg (by norm_num)]
  norm_num

/-- Concrete instantiation of ks_critical_always_coefficient_over_sqrt on the
    4-point sample 0, 1/4, 1/2, 1 at alpha = 0.05 with the model sqrt exact at
    the perfect square 4 (math.sqrt(4) = 2.0 exactly in the source). -/
theorem ks_critical_always_coefficient_over_sqrt_witness :
    (StatisticalTests.ksExampleResult.critical =
        StatisticalTests.ks_coefficient 0.05 /
          (fun k => ((Nat.sqrt k : ℕ) : ℚ)) ([(0 : ℚ), 1/4, 1/2, 1].length)) ∧
      (StatisticalTests.ksExampleResult.passes = true ↔
        StatisticalTests.ksExampleResult.calculated ≤ StatisticalTests.ksExampleResult.critical) ∧
      StatisticalTests.ks_coefficient 0.01 = 1.628 ∧
      StatisticalTests.ks_coefficient 0.05 = 1.36 ∧
      StatisticalTests.ks_coefficient 0.10 = 1.22 :=
  ks_critical_always_coefficient_over_sqrt (fun k => ((Nat.sqrt k : ℕ) : ℚ))
    [0, 1/4, 1/2, 1] 0.05 StatisticalTests.ksExampleResult ksExampleRun

/-- C8 (counterexample): at the small sample size n = 4 -- far inside the range
    any exact small-sample Kolmogorov-Smirnov table covers -- the source still
    computes coefficient / sqrt(n): on the sample 0, 1/4, 1/2, 1 with
    alpha = 0.05 the critical value returned is 1.36 / sqrt(4) = 0.68, which is
    not an exact small-sample entry (the standard exact table gives 0.624 at
    n = 4); no table indexed by n exists in the source. -/
theorem ks_small_sample_uses_formula :
    StatisticalTests.ks_run_test (fun k => ((Nat.sqrt k : ℕ) : ℚ)) [0, 1/4, 1/2, 1] 0.05 =
        Except.ok ⟨1/4, 17/25, true, 4⟩ ∧
      (17 : ℚ) / 25 = 1.36 / 2 ∧ (17 : ℚ) / 25 ≠ 0.624 :=
  ⟨ksExampleRun, by norm_num, by norm_num⟩

/-- C6: for every density spec (a, b, M, f), injected draw stream and target
    count n > 0, the engine performs exactly n trials (never until n
    acceptances): the trial list has length n, its i-th entry is the trial built
    from the i-th pair of uniforms, each trial forms the candidate
    x = a + (b - a) * u1 and accepts iff u2 <= f(x) / M, every trial is recorded
    in the trace lists, and the returned acceptance rate is accepted / n. -/
theorem acceptance_rejection_fixed_trials (a b M : ℚ) (f : ℚ → ℚ)
    (draws : Nat → ℚ × ℚ) (n : Nat) (hn : 0 < n) :
    (AcceptanceRejection.trials a b M f draws n).length = n ∧
    (∀ i, i < n → (AcceptanceRejection.trials a b M f draws n).get? i =
        some (AcceptanceRejection.run_trial a b M f (draws i))) ∧
    (∀ u : ℚ × ℚ,
       (AcceptanceRejection.run_trial a b M f u).candidate = a + (b - a) * u.1 ∧
       ((AcceptanceRejection.run_trial a b M f u).accepted = true ↔
         u.2 ≤ f (a + (b - a) * u.1) / M)) ∧
    (AcceptanceRejection.generate a b M f draws n).acceptance_rate =
      (((AcceptanceRejection.trials a b M f draws n).countP (·.accepted) : ℕ) : ℚ) / (n : ℚ) ∧
    (AcceptanceRejection.generate a b M f draws n).r1_values.length = n ∧
    (AcceptanceRejection.generate a b M f draws n).r2_values.length = n ∧
    (AcceptanceRejection.generate a b M f draws n).chart_y.length = n ∧
    (AcceptanceRejection.generate a b M f draws n).chart_accepted.length = n := by
  refine ⟨by simp [AcceptanceRejection.trials], ?_, ?_, ?_,
    by simp [AcceptanceRejection.generate, AcceptanceRejection.trials],
    by simp [AcceptanceRejection.generate, AcceptanceRejection.trials],
    by simp [AcceptanceRejection.generate, AcceptanceRejection.trials],
    by simp [AcceptanceRejection.generate, AcceptanceRejection.trials]⟩
  · intro i hi
    simp [AcceptanceRejection.trials, List.getElem?_range hi]
  · intro u
    refine ⟨rfl, ?_⟩
    simp [AcceptanceRejection.run_trial]
  · simp [AcceptanceRejection.generate, if_pos hn]

/-- Concrete instantiation of acceptance_rejection_fixed_trials with the linear
    density f(x) = 2x on [0, 1], M = 2 and a constant draw stream, n = 2. -/
theorem acceptance_rejection_fixed_trials_witness :
    (AcceptanceRejection.trials 0 1 2 AcceptanceRejection.lineal_density
      (fun _ => (1/2, 1/2)) 2).length = 2 :=
  (acceptance_rejection_fixed_trials 0 1 2 AcceptanceRejection.lineal_density
    (fun _ => (1/2, 1/2)) 2 (by norm_num)).1
